import Mathlib

/-!
Shallow embedding of `src/search.py` (a Python 2 module deriving search
tokens and display tags for a story).  Python 2 byte strings are modelled
as Lean `String`s whose characters play the role of bytes (a byte `b`
is represented by the character of code point `b`).  Python `set`s of
strings are modelled as `Finset String`.  Fallible operations
(`unicode()` decoding, `urlparse`'s invalid-IPv6 check) return `Except`.
The two external collaborators (`porter2.stem` and `extractTags` from the
`tags` module) are injected as function parameters, mirroring the fact
that they are imported black boxes.
-/

set_option maxRecDepth 4000000
set_option maxHeartbeats 4000000

namespace Progscrape

/-- Python exceptions that can escape the functions of `search.py`. -/
inductive PyErr where
  | unicodeDecodeError
  | invalidIPv6URL
deriving DecidableEq, Repr

instance {ε α : Type} [DecidableEq ε] [DecidableEq α] : DecidableEq (Except ε α)
  | .ok a, .ok b =>
    decidable_of_iff (a = b) ⟨fun h => by rw [h], fun h => by cases h; rfl⟩
  | .ok _, .error _ => isFalse (fun h => by cases h)
  | .error _, .ok _ => isFalse (fun h => by cases h)
  | .error e, .error f =>
    decidable_of_iff (e = f) ⟨fun h => by rw [h], fun h => by cases h; rfl⟩

/-- Characters of Python's `string.punctuation`:
`!"#$%&'()*+,-./`, `:;<=>?@`, `[\]^_` with backquote, and the four
chars from code 123 to 126.  These are exactly the ASCII codes
33–47, 58–64, 91–96 and 123–126. -/
def isPyPunct (c : Char) : Bool :=
  (33 ≤ c.toNat ∧ c.toNat ≤ 47) ∨ (58 ≤ c.toNat ∧ c.toNat ≤ 64) ∨
  (91 ≤ c.toNat ∧ c.toNat ≤ 96) ∨ (123 ≤ c.toNat ∧ c.toNat ≤ 126)

/-- Python 2 `str.split()` whitespace: space, tab, newline, vertical tab,
form feed, carriage return (codes 32 and 9–13). -/
def isPySpace (c : Char) : Bool :=
  c.toNat = 32 ∨ (9 ≤ c.toNat ∧ c.toNat ≤ 13)

/-- Python 2 `str.lower()` on a byte: maps `A`–`Z` (65–90) to `a`–`z`,
leaves every other byte unchanged. -/
def pyLowerChar (c : Char) : Char :=
  if 65 ≤ c.toNat ∧ c.toNat ≤ 90 then Char.ofNat (c.toNat + 32) else c

/-- The `WORD_DELIMITER_REGEX.sub(' ', text)`: replace every punctuation
character by a single space. -/
def WORD_DELIMITER_sub (text : String) : String :=
  ⟨text.data.map (fun c => if isPyPunct c then ' ' else c)⟩

/-- The `text.lower()` for a Python 2 byte string. -/
def pyLower (s : String) : String :=
  ⟨s.data.map pyLowerChar⟩

/-- Cut a character list at every whitespace character, keeping empty
pieces (there is always at least one piece). -/
def spacePieces (l : List Char) : List (List Char) :=
  l.foldr
    (fun c gs =>
      if isPySpace c then [] :: gs
      else
        match gs with
        | [] => [[c]]
        | g :: rest => (c :: g) :: rest)
    [[]]

/-- Python 2 `str.split()` (no separator): split on runs of whitespace,
discarding empty pieces. -/
def wsSplit (l : List Char) : List (List Char) :=
  (spacePieces l).filter (fun g => ¬ g.isEmpty)

/-- The `text.split()` on strings. -/
def pySplit (s : String) : List String :=
  (wsSplit s.data).map (fun l => ⟨l⟩)

/-- Python 2 `unicode(w)`: succeeds (returning the same text) exactly
when every byte is ASCII; otherwise raises `UnicodeDecodeError`. -/
def pyUnicode (s : String) : Except PyErr String :=
  if s.data.all (fun c => c.toNat < 128) then .ok s else .error .unicodeDecodeError

/-- Evaluate a fallible function over a list, left to right, stopping at
the first raised exception — the semantics of a Python list/generator
comprehension whose body can raise. -/
def mapE (f : α → Except PyErr β) : List α → Except PyErr (List β)
  | [] => .ok []
  | a :: as =>
    match f a with
    | .error e => .error e
    | .ok b =>
      match mapE f as with
      | .error e => .error e
      | .ok bs => .ok (b :: bs)

/-- The `FULL_TEXT_MIN_LENGTH` from `search.py`. -/
def FULL_TEXT_MIN_LENGTH : Nat := 2

/-- The word list of `FULL_TEXT_STOP_WORDS` from `search.py`, verbatim. -/
def FULL_TEXT_STOP_WORDS_LIST : List String :=
  [ "a", "about", "according", "accordingly", "affected", "affecting", "after",
   "again", "against", "all", "almost", "already", "also", "although",
   "always", "am", "among", "an", "and", "any", "anyone", "apparently", "are",
   "arise", "as", "aside", "at", "away", "be", "became", "because", "become",
   "becomes", "been", "before", "being", "between", "both", "briefly", "but",
   "by", "came", "can", "cannot", "certain", "certainly", "could", "did", "do",
   "does", "done", "during", "each", "either", "else", "etc", "ever", "every",
   "following", "for", "found", "from", "further", "gave", "gets", "give",
   "given", "giving", "gone", "got", "had", "hardly", "has", "have", "having",
   "here", "how", "however", "i", "if", "in", "into", "is", "it", "itself",
   "just", "keep", "kept", "knowledge", "largely", "like", "made", "mainly",
   "make", "many", "might", "more", "most", "mostly", "much", "must", "nearly",
   "necessarily", "neither", "next", "no", "none", "nor", "normally", "not",
   "noted", "now", "obtain", "obtained", "of", "often", "on", "only", "or",
   "other", "our", "out", "owing", "particularly", "past", "perhaps", "please",
   "poorly", "possible", "possibly", "potentially", "predominantly", "present",
   "previously", "primarily", "probably", "prompt", "promptly", "put",
   "quickly", "quite", "rather", "readily", "really", "recently", "regarding",
   "regardless", "relatively", "respectively", "resulted", "resulting",
   "results", "said", "same", "seem", "seen", "several", "shall", "should",
   "show", "showed", "shown", "shows", "significantly", "similar", "similarly",
   "since", "slightly", "so", "some", "sometime", "somewhat", "soon",
   "specifically", "state", "states", "strongly", "substantially",
   "successfully", "such", "sufficiently", "than", "that", "the", "their",
   "theirs", "them", "then", "there", "therefore", "these", "they", "this",
   "those", "though", "through", "throughout", "to", "too", "toward", "under",
   "unless", "until", "up", "upon", "use", "used", "usefully", "usefulness",
   "using", "usually", "various", "very", "was", "we", "were", "what", "when",
   "where", "whether", "which", "while", "who", "whose", "why", "widely",
   "will", "with", "within", "without", "would", "yet", "you" ]

/-- The `FULL_TEXT_STOP_WORDS` as a finite set (the word list is
duplicate-free, so the set holds exactly the listed words). -/
def FULL_TEXT_STOP_WORDS : Finset String :=
  ⟨↑FULL_TEXT_STOP_WORDS_LIST, by decide⟩

/-- The `URL_STOP_WORDS` from `search.py`. -/
def URL_STOP_WORDS : Finset String :=
  ⟨↑(["www", "html", "post", "story", "archive"] : List String), by decide⟩

/-- The `tokenize(text)` from `search.py`:
replace punctuation by spaces, lowercase, split on whitespace, keep the
words longer than `FULL_TEXT_MIN_LENGTH` (converting each with
`unicode(...)`, which can raise on non-ASCII bytes), and subtract the
general stop words. -/
def tokenize (text : String) : Except PyErr (Finset String) :=
  match mapE pyUnicode ((pySplit (pyLower (WORD_DELIMITER_sub text))).filter
      (fun w => w.length > FULL_TEXT_MIN_LENGTH)) with
  | .error e => .error e
  | .ok uwords => .ok (uwords.toFinset \ FULL_TEXT_STOP_WORDS)

/-- Joining words with single spaces (claim C9's "text formed by
joining those words with spaces"), on character lists. -/
def joinChars : List (List Char) → List Char
  | [] => []
  | [w] => w
  | w :: ws => w ++ ' ' :: joinChars ws

/-- Joining a list of words with single spaces. -/
def joinWords (ws : List String) : String :=
  ⟨joinChars (ws.map String.data)⟩

/-- A word in tokenized form, as amended for claim C9: at least three
characters, not a stop word, and made of ASCII characters that are
neither punctuation, nor whitespace, nor uppercase letters. -/
def tokenizedWord (w : String) : Prop :=
  3 ≤ w.length ∧ w ∉ FULL_TEXT_STOP_WORDS ∧
    ∀ c ∈ w.data, c.toNat < 128 ∧ isPyPunct c = false ∧ isPySpace c = false ∧
      ¬ (65 ≤ c.toNat ∧ c.toNat ≤ 90)

instance (w : String) : Decidable (tokenizedWord w) :=
  inferInstanceAs (Decidable (3 ≤ w.length ∧ w ∉ FULL_TEXT_STOP_WORDS ∧
    ∀ c ∈ w.data, c.toNat < 128 ∧ isPyPunct c = false ∧ isPySpace c = false ∧
      ¬ (65 ≤ c.toNat ∧ c.toNat ≤ 90)))

/-! ### The Python 2.7 `urlparse.urlparse` model (netloc and path only)

`search.py` uses `urlparse(url).netloc` and `urlparse(url).path` from
the standard library.  The relevant behaviour of `urlparse.urlsplit`:
first split a scheme off (`url[:i]` before the first `:` at index
`i > 0`, accepted either when it is exactly `http`, or when it consists
of scheme characters and the remainder is not a pure digit string);
then, when the remainder starts with `//`, the network location extends
to the first `/`, `?` or `#` (raising `ValueError` when it contains an
unmatched square bracket); finally fragment (`#`) and query (`?`) parts
are cut off the remainder.  `urlparse` additionally splits a `;params`
suffix off the last path segment for schemes in `uses_params`. -/

/-- A scheme character: letter, digit, `+`, `-` or `.`. -/
def isSchemeChar (c : Char) : Bool :=
  c.isAlpha ∨ c.isDigit ∨ c = '+' ∨ c = '-' ∨ c = '.'

/-- The scheme-splitting step of `urlsplit`: returns the scheme
(possibly empty) and the remaining text. -/
def splitScheme (l : List Char) : String × List Char :=
  match l.findIdx? (· = ':') with
  | none => ("", l)
  | some i =>
    if i > 0 then
      if l.take i = ['h', 't', 't', 'p'] then ("http", l.drop (i + 1))
      else if (l.take i).all isSchemeChar then
        if (l.drop (i + 1)).isEmpty ∨ ¬ (l.drop (i + 1)).all Char.isDigit then
          (⟨(l.take i).map pyLowerChar⟩, l.drop (i + 1))
        else ("", l)
      else ("", l)
    else ("", l)

/-- A character ending the network location: `/`, `?` or `#`. -/
def isNetlocEnd (c : Char) : Bool :=
  c = '/' ∨ c = '?' ∨ c = '#'

/-- The `_splitnetloc`, applied when the remainder starts with `//`:
netloc up to the first `/`, `?` or `#` after the two slashes, and the
rest.  Otherwise the netloc is empty. -/
def splitNetloc (u : List Char) : List Char × List Char :=
  if u.take 2 = ['/', '/'] then
    ((u.drop 2).takeWhile (fun c => !isNetlocEnd c),
     (u.drop 2).dropWhile (fun c => !isNetlocEnd c))
  else ([], u)

/-- The `if '#' in url: url, fragment = url.split('#', 1)`, first component. -/
def stripFrag (u : List Char) : List Char :=
  if '#' ∈ u then u.takeWhile (· ≠ '#') else u

/-- The `if '?' in url: url, query = url.split('?', 1)`, first component. -/
def stripQuery (u : List Char) : List Char :=
  if '?' ∈ u then u.takeWhile (· ≠ '?') else u

/-- The `urlsplit`, reduced to the `(scheme, netloc, path-with-params)`
triple consumed by `search.py`; `.error` models the `ValueError`
raised on a netloc holding an unmatched square bracket. -/
def pyUrlsplit (url : String) : Except PyErr (String × String × String) :=
  if ('[' ∈ (splitNetloc (splitScheme url.data).2).1 ∧
        ']' ∉ (splitNetloc (splitScheme url.data).2).1) ∨
     (']' ∈ (splitNetloc (splitScheme url.data).2).1 ∧
        '[' ∉ (splitNetloc (splitScheme url.data).2).1) then
    .error .invalidIPv6URL
  else
    .ok ((splitScheme url.data).1, ⟨(splitNetloc (splitScheme url.data).2).1⟩,
         ⟨stripQuery (stripFrag (splitNetloc (splitScheme url.data).2).2)⟩)

/-- Schemes for which `urlparse` splits `;params` off the path. -/
def uses_params : List String :=
  ["ftp", "hdl", "prospero", "http", "imap", "https", "shttp", "rtsp",
   "rtspu", "sip", "sips", "mms", "", "sftp", "tel"]

/-- The `urlparse._splitparams`, first component: cut the path at the first
`;` that occurs at or after the last `/` (or at the first `;` at all
when the path has no `/`).  Only called when the path contains `;`. -/
def splitparamsPath (l : List Char) : List Char :=
  if '/' ∈ l then
    let ri := l.length - 1 - ((l.reverse.findIdx? (· = '/')).getD 0)
    match (l.drop ri).findIdx? (· = ';') with
    | some j => l.take (ri + j)
    | none => l
  else l.takeWhile (· ≠ ';')

/-- The `urlparse(url).path`. -/
def pyUrlparsePath (url : String) : Except PyErr String :=
  match pyUrlsplit url with
  | .error e => .error e
  | .ok (scheme, _netloc, p) =>
    if scheme ∈ uses_params ∧ ';' ∈ p.data then .ok ⟨splitparamsPath p.data⟩
    else .ok p

/-- The `urlparse(url).netloc`. -/
def pyUrlparseNetloc (url : String) : Except PyErr String :=
  match pyUrlsplit url with
  | .error e => .error e
  | .ok (_scheme, netloc, _p) => .ok netloc

/-! ### `clean_host`, `clean_url` -/

/-- Helper for the host regex: after the leading `w`-run, the match
requires a digit run followed by a literal dot; on success return the
tail after the dot, otherwise the original host unchanged. -/
def hostDotTail (t orig : List Char) : List Char :=
  match t.dropWhile Char.isDigit with
  | '.' :: r => r
  | _ => orig

/-- The character `w`, as a test. -/
def isW (c : Char) : Bool := c = 'w'

/-- The `re.sub("^ww?w?[0-9]*\\.", "", host)`: the pattern anchored at the
start consumes one to three `w`s, then digits, then a dot.  Neither
`[0-9]*` nor `\\.` can consume a `w`, so the `w`s of a match are exactly
the leading `w`-run of the host: a match exists precisely when that run
has length 1 to 3 and is followed by a digit run and a dot, and it ends
after that dot. -/
def stripHostWWW (s : List Char) : List Char :=
  if 1 ≤ (s.takeWhile isW).length ∧ (s.takeWhile isW).length ≤ 3 then
    hostDotTail (s.dropWhile isW) s
  else s

/-- The `clean_host(url)` from `search.py`. -/
def clean_host (url : String) : Except PyErr String :=
  match pyUrlparseNetloc url with
  | .error e => .error e
  | .ok host => .ok ⟨stripHostWWW host.data⟩

/-- The `re.sub("\\.[a-z]{1,5}$", '', s)`: a match, if any, is a suffix
consisting of a dot followed by one to five lowercase letters reaching
the end of the string; because a dot is not a lowercase letter the
letters of the match are exactly the maximal lowercase run at the end
of the string. -/
def stripExtension (s : List Char) : List Char :=
  if 1 ≤ (s.reverse.takeWhile Char.isLower).length ∧
      (s.reverse.takeWhile Char.isLower).length ≤ 5 then
    match s.reverse.dropWhile Char.isLower with
    | '.' :: rest => rest.reverse
    | _ => s
  else s

/-- An ASCII alphanumeric character (`[A-Za-z0-9]`). -/
def isAsciiAlnum (c : Char) : Bool :=
  (65 ≤ c.toNat ∧ c.toNat ≤ 90) ∨ (97 ≤ c.toNat ∧ c.toNat ≤ 122) ∨
  (48 ≤ c.toNat ∧ c.toNat ≤ 57)

/-- The `re.sub("[^A-Za-z0-9]", " ", s)`: each non-alphanumeric character is
replaced by one space (a run of `k` such characters becomes `k` spaces). -/
def nonAlnumToSpace (s : List Char) : List Char :=
  s.map (fun c => if isAsciiAlnum c then c else ' ')

/-- The `clean_url(url)` from `search.py`. -/
def clean_url (url : String) : Except PyErr String :=
  match pyUrlparsePath url with
  | .error e => .error e
  | .ok p => .ok ⟨nonAlnumToSpace (stripExtension p.data)⟩

/-- The replacement step as claim C5 words it: every maximal run of
non-alphanumeric-ASCII characters becomes exactly one space.  The flag
records whether the previous character was part of such a run. -/
def collapseRunsAux : Bool → List Char → List Char
  | _, [] => []
  | inRun, c :: rest =>
    if isAsciiAlnum c then c :: collapseRunsAux false rest
    else if inRun then collapseRunsAux true rest
    else ' ' :: collapseRunsAux true rest

/-- Replace every maximal run of non-alphanumeric characters with one
space (the run-collapsing replacement described by claim C5). -/
def collapseRuns (l : List Char) : List Char := collapseRunsAux false l

/-- The `clean_url` exactly as claim C5 describes it: the path component,
with the trailing dot-plus-lowercase-letters suffix stripped (the strip
step of the claim matches the code, see `stripExtension_spec`), and
every maximal run of non-alphanumeric characters replaced by a single
space.  Used to exhibit where the claim's description and the code
disagree. -/
def clean_url_claimC5 (url : String) : Except PyErr String :=
  match pyUrlparsePath url with
  | .error e => .error e
  | .ok p => .ok ⟨collapseRuns (stripExtension p.data)⟩

/-! ### `tokenize_url`, `tokenize_story`, `generate_search_field` -/

/-- The `tokenize_url(url)` from `search.py`. -/
def tokenize_url (url : String) : Except PyErr (Finset String) :=
  match clean_url url with
  | .error e => .error e
  | .ok cu =>
    match tokenize cu with
    | .error e => .error e
    | .ok url_tokens => .ok (url_tokens \ URL_STOP_WORDS)

/-- The `tokenize_story(titles, tags, url)` from `search.py`. -/
def tokenize_story (titles : List String) (tags : Finset String) (url : String) :
    Except PyErr (Finset String) :=
  match mapE tokenize titles with
  | .error e => .error e
  | .ok titleTokens =>
    match tokenize_url url with
    | .error e => .error e
    | .ok urlTokens => .ok ((titleTokens.foldl (· ∪ ·) ∅ ∪ tags) ∪ urlTokens)

/-- The `Results` class of `search.py`. -/
structure Results where
  search_tokens : Finset String
  tags : List String

instance : DecidableEq Results := fun r1 r2 =>
  decidable_of_iff (r1.search_tokens = r2.search_tokens ∧ r1.tags = r2.tags)
    (by cases r1; cases r2; simp)

/-- Lexicographic comparison of byte sequences, as Python 2 compares
byte strings: compare the first position where the sequences differ; a
strict prefix is smaller. -/
def lexLe : List Char → List Char → Bool
  | [], _ => true
  | _ :: _, [] => false
  | a :: as, b :: bs =>
    if a.toNat < b.toNat then true
    else if b.toNat < a.toNat then false
    else lexLe as bs

/-- Python 2 `<=` on byte strings. -/
def pyStrLe (s t : String) : Prop := lexLe s.data t.data = true

instance : DecidableRel pyStrLe := fun s t =>
  inferInstanceAs (Decidable (lexLe s.data t.data = true))

theorem lexLe_refl : ∀ l, lexLe l l = true
  | [] => rfl
  | a :: as => by simp [lexLe, lexLe_refl as]

theorem lexLe_total : ∀ a b, lexLe a b = true ∨ lexLe b a = true
  | [], _ => Or.inl rfl
  | _ :: _, [] => Or.inr rfl
  | a :: as, b :: bs => by
    by_cases h1 : a.toNat < b.toNat
    · exact Or.inl (by simp [lexLe, h1])
    · by_cases h2 : b.toNat < a.toNat
      · exact Or.inr (by simp [lexLe, h2])
      · rcases lexLe_total as bs with h | h
        · exact Or.inl (by simp [lexLe, h1, h2, h])
        · exact Or.inr (by simp [lexLe, h1, h2, h])

theorem lexLe_antisymm : ∀ a b, lexLe a b = true → lexLe b a = true → a = b
  | [], [], _, _ => rfl
  | [], _ :: _, _, h2 => by simp [lexLe] at h2
  | _ :: _, [], h1, _ => by simp [lexLe] at h1
  | a :: as, b :: bs, h1, h2 => by
    by_cases hab : a.toNat < b.toNat
    · simp [lexLe, hab, Nat.lt_asymm hab] at h2
    · by_cases hba : b.toNat < a.toNat
      · simp [lexLe, hab, hba] at h1
      · have hnat : a.toNat = b.toNat := by omega
        have hv : a = b := Char.ext (UInt32.toNat.inj hnat)
        rw [lexLe] at h1 h2
        rw [if_neg hab, if_neg hba] at h1
        rw [if_neg hba, if_neg hab] at h2
        rw [hv, lexLe_antisymm as bs h1 h2]

theorem lexLe_trans : ∀ a b c, lexLe a b = true → lexLe b c = true → lexLe a c = true
  | [], _, _, _, _ => rfl
  | _ :: _, [], _, h1, _ => by simp [lexLe] at h1
  | _ :: _, _ :: _, [], _, h2 => by simp [lexLe] at h2
  | a :: as, b :: bs, c :: cs, h1, h2 => by
    rw [lexLe] at h1 h2 ⊢
    by_cases hab : a.toNat < b.toNat
    · by_cases hbc : b.toNat < c.toNat
      · rw [if_pos (by omega)]
      · by_cases hcb : c.toNat < b.toNat
        · rw [if_neg hbc, if_pos hcb] at h2
          exact absurd h2 Bool.false_ne_true
        · rw [if_pos (by omega)]
    · by_cases hba : b.toNat < a.toNat
      · rw [if_neg hab, if_pos hba] at h1
        exact absurd h1 Bool.false_ne_true
      · rw [if_neg hab, if_neg hba] at h1
        by_cases hbc : b.toNat < c.toNat
        · rw [if_pos (by omega)]
        · by_cases hcb : c.toNat < b.toNat
          · rw [if_neg hbc, if_pos hcb] at h2
            exact absurd h2 Bool.false_ne_true
          · rw [if_neg hbc, if_neg hcb] at h2
            rw [if_neg (by omega : ¬ a.toNat < c.toNat),
                if_neg (by omega : ¬ c.toNat < a.toNat)]
            exact lexLe_trans as bs cs h1 h2

instance : IsTrans String pyStrLe := ⟨fun a b c => lexLe_trans a.data b.data c.data⟩

instance : IsAntisymm String pyStrLe :=
  ⟨fun a b h1 h2 => by
    cases a; cases b
    exact congrArg String.mk (lexLe_antisymm _ _ h1 h2)⟩

instance : IsTotal String pyStrLe := ⟨fun a b => lexLe_total a.data b.data⟩

instance : IsRefl String pyStrLe := ⟨fun a => lexLe_refl a.data⟩

/-- The `tags = list(tags); tags.sort()` for a Python set of byte strings:
the sorted list of the set's elements in lexicographic byte order.
List conversion of a Python set enumerates in unspecified order, but
sorting a duplicate-free list yields the unique sorted permutation, so
the function lifts to the quotient. -/
def pySortSet (s : Finset String) : List String :=
  Quot.liftOn s.val (fun l => List.insertionSort pyStrLe l)
    (fun a b h =>
      List.eq_of_perm_of_sorted
        ((List.perm_insertionSort _ a).trans (h.trans (List.perm_insertionSort _ b).symm))
        (List.sorted_insertionSort _ a) (List.sorted_insertionSort _ b))

/-- The tag union at the start of `generate_search_field`: the existing
tags together with the extractor's output for every title. -/
def allTags (extractTags : String → Finset String) (titles : List String)
    (existing_tags : Finset String) : Finset String :=
  titles.foldl (fun acc t => acc ∪ extractTags t) existing_tags

/-- The `generate_search_field(titles, existing_tags, url)` from `search.py`,
with the two external collaborators `stem` (`porter2.stem`) and
`extractTags` (from the `tags` module) passed in as parameters. -/
def generate_search_field (stem : String → String)
    (extractTags : String → Finset String) (titles : List String)
    (existing_tags : Finset String) (url : String) : Except PyErr Results :=
  match tokenize_story titles (allTags extractTags titles existing_tags) url with
  | .error e => .error e
  | .ok rawTokens =>
    match clean_host url with
    | .error e => .error e
    | .ok host =>
      .ok ⟨insert ("host:" ++ host) (rawTokens.image stem),
           host :: pySortSet (allTags extractTags titles existing_tags)⟩

/-! ### General lemmas about the embedding -/

theorem mapE_ok {α β : Type} {f : α → Except PyErr β} :
    ∀ {l : List α} {l2 : List β}, mapE f l = .ok l2 →
      List.Forall₂ (fun a b => f a = .ok b) l l2
  | [], l2, h => by
    simp only [mapE] at h
    injection h with h
    subst h
    exact .nil
  | a :: as, l2, h => by
    simp only [mapE] at h
    split at h
    · exact absurd h (by simp)
    · rename_i b hb
      split at h
      · exact absurd h (by simp)
      · rename_i bs hbs
        injection h with h
        subst h
        exact .cons hb (mapE_ok hbs)

theorem pyUnicode_ok {s t : String} (h : pyUnicode s = .ok t) :
    t = s ∧ ∀ c ∈ s.data, c.toNat < 128 := by
  unfold pyUnicode at h
  split at h
  · rename_i hall
    injection h with h
    subst h
    simp only [List.all_eq_true, decide_eq_true_eq] at hall
    exact ⟨rfl, hall⟩
  · exact absurd h (by simp)

theorem mapE_pyUnicode_ok : ∀ {l l2 : List String}, mapE pyUnicode l = .ok l2 → l2 = l := by
  intro l l2 h
  have hf := mapE_ok h
  clear h
  induction hf with
  | nil => rfl
  | cons hab _ ih => rw [ih, (pyUnicode_ok hab).1]

/-- What a successful `tokenize` returns: the post-split words longer
than the threshold, as a set, minus the stop words. -/
theorem tokenize_ok {text : String} {s : Finset String} (h : tokenize text = .ok s) :
    s = ((pySplit (pyLower (WORD_DELIMITER_sub text))).filter
          (fun w => w.length > FULL_TEXT_MIN_LENGTH)).toFinset \ FULL_TEXT_STOP_WORDS := by
  unfold tokenize at h
  split at h
  · exact absurd h (by simp)
  · rename_i uwords hu
    injection h with h
    subst h
    rw [mapE_pyUnicode_ok hu]

/-- What a successful `tokenize_url` returns. -/
theorem tokenize_url_ok {url : String} {s : Finset String} (h : tokenize_url url = .ok s) :
    ∃ cu ut, clean_url url = .ok cu ∧ tokenize cu = .ok ut ∧ s = ut \ URL_STOP_WORDS := by
  unfold tokenize_url at h
  split at h
  · exact absurd h (by simp)
  · rename_i cu hcu
    split at h
    · exact absurd h (by simp)
    · rename_i ut hut
      injection h with h
      exact ⟨cu, ut, hcu, hut, h.symm⟩

/-- What a successful `tokenize_story` returns. -/
theorem tokenize_story_ok {titles : List String} {tags : Finset String} {url : String}
    {s : Finset String} (h : tokenize_story titles tags url = .ok s) :
    ∃ titleTokens urlTokens, mapE tokenize titles = .ok titleTokens ∧
      tokenize_url url = .ok urlTokens ∧
      s = (titleTokens.foldl (· ∪ ·) ∅ ∪ tags) ∪ urlTokens := by
  unfold tokenize_story at h
  split at h
  · exact absurd h (by simp)
  · rename_i titleTokens htt
    split at h
    · exact absurd h (by simp)
    · rename_i urlTokens hut
      injection h with h
      exact ⟨titleTokens, urlTokens, htt, hut, h.symm⟩

/-- What a successful `generate_search_field` returns. -/
theorem generate_search_field_ok {stem : String → String}
    {extractTags : String → Finset String} {titles : List String}
    {existing_tags : Finset String} {url : String} {r : Results}
    (h : generate_search_field stem extractTags titles existing_tags url = .ok r) :
    ∃ rawTokens host,
      tokenize_story titles (allTags extractTags titles existing_tags) url = .ok rawTokens ∧
      clean_host url = .ok host ∧
      r = ⟨insert ("host:" ++ host) (rawTokens.image stem),
           host :: pySortSet (allTags extractTags titles existing_tags)⟩ := by
  unfold generate_search_field at h
  split at h
  · exact absurd h (by simp)
  · rename_i rawTokens hts
    split at h
    · exact absurd h (by simp)
    · rename_i host hch
      injection h with h
      exact ⟨rawTokens, host, hts, hch, h.symm⟩

/-- Membership in a left fold of set unions. -/
theorem mem_foldl_union {w : String} : ∀ {ts : List (Finset String)} {init : Finset String},
    (w ∈ ts.foldl (· ∪ ·) init ↔ w ∈ init ∨ ∃ t ∈ ts, w ∈ t) := by
  intro ts
  induction ts with
  | nil => simp
  | cons t ts ih =>
    intro init
    rw [List.foldl_cons, ih]
    simp only [Finset.mem_union, List.mem_cons]
    constructor
    · rintro ((h | h) | ⟨u, hu, hw⟩)
      · exact Or.inl h
      · exact Or.inr ⟨t, Or.inl rfl, h⟩
      · exact Or.inr ⟨u, Or.inr hu, hw⟩
    · rintro (h | ⟨u, (rfl | hu), hw⟩)
      · exact Or.inl (Or.inl h)
      · exact Or.inl (Or.inr hw)
      · exact Or.inr ⟨u, hu, hw⟩

/-- The `pySortSet` output is sorted for the byte order. -/
theorem pySortSet_sorted (s : Finset String) : List.Sorted pyStrLe (pySortSet s) := by
  obtain ⟨l, hl⟩ := Quot.exists_rep s.val
  unfold pySortSet
  rw [← hl]
  exact List.sorted_insertionSort _ _

/-- The `pySortSet` output holds exactly the elements of the set. -/
theorem pySortSet_coe (s : Finset String) : (↑(pySortSet s) : Multiset String) = s.val := by
  obtain ⟨l, hl⟩ := Quot.exists_rep s.val
  unfold pySortSet
  rw [← hl]
  exact Quot.sound (List.perm_insertionSort _ _)

/-- The `pySortSet` output has no duplicates. -/
theorem pySortSet_nodup (s : Finset String) : (pySortSet s).Nodup := by
  have h := s.nodup
  rw [← pySortSet_coe s] at h
  exact Multiset.coe_nodup.mp h

/-- Tokens of a successful `tokenize` are never general stop words. -/
theorem tokenize_mem_not_stop {text : String} {s : Finset String}
    (h : tokenize text = .ok s) {w : String} (hw : w ∈ s) :
    w ∉ FULL_TEXT_STOP_WORDS := by
  rw [tokenize_ok h, Finset.mem_sdiff] at hw
  exact hw.2

/-- A right element of a `Forall₂` relation is related to some left element. -/
theorem forall₂_mem_right {α β : Type} {r : α → β → Prop} :
    ∀ {l : List α} {l2 : List β}, List.Forall₂ r l l2 → ∀ {b}, b ∈ l2 → ∃ a ∈ l, r a b := by
  intro l l2 hf
  induction hf with
  | nil => intro b hb; cases hb
  | cons hab _htail ih =>
    intro b hb
    rcases List.mem_cons.mp hb with rfl | hb
    · exact ⟨_, List.mem_cons_self _ _, hab⟩
    · obtain ⟨a, ha, har⟩ := ih hb
      exact ⟨a, List.mem_cons_of_mem _ ha, har⟩

/-! ### Characterization of the host-prefix regex -/

theorem hostDotTail_drop {t r : List Char} (orig : List Char)
    (h : t.dropWhile Char.isDigit = '.' :: r) : hostDotTail t orig = r := by
  unfold hostDotTail
  rw [h]
  rfl

theorem hostDotTail_orig {t : List Char} (orig : List Char)
    (h : ∀ r, t.dropWhile Char.isDigit ≠ '.' :: r) : hostDotTail t orig = orig := by
  unfold hostDotTail
  split
  · rename_i r heq
    exact absurd heq (h r)
  · rfl

theorem dropWhile_digits_of_append {d r : List Char}
    (hd : ∀ c ∈ d, Char.isDigit c = true) :
    (d ++ '.' :: r).dropWhile Char.isDigit = '.' :: r := by
  rw [List.dropWhile_append_of_pos hd, List.dropWhile_cons_of_neg (by decide)]

theorem takeWhile_isW_replicate (l : List Char) :
    l.takeWhile isW = List.replicate (l.takeWhile isW).length 'w' := by
  rw [List.eq_replicate_iff]
  refine ⟨rfl, fun b hb => ?_⟩
  have hx := List.mem_takeWhile_imp hb
  simp only [isW, decide_eq_true_eq] at hx
  exact hx

theorem not_isW_of_digit {c : Char} (h : Char.isDigit c = true) : isW c = false := by
  cases hx : isW c with
  | false => rfl
  | true =>
    simp only [isW, decide_eq_true_eq] at hx
    subst hx
    exact absurd h (by decide)

/-- Splitting a `w`-run, digit-run, dot decomposition at the `w`-run
boundary. -/
theorem decomp_w_parts {k : Nat} {d rest : List Char}
    (hd : ∀ c ∈ d, Char.isDigit c = true) :
    (List.replicate k 'w' ++ (d ++ '.' :: rest)).takeWhile isW = List.replicate k 'w' ∧
    (List.replicate k 'w' ++ (d ++ '.' :: rest)).dropWhile isW = d ++ '.' :: rest := by
  have hall : ∀ c ∈ List.replicate k 'w', isW c = true := fun c hc => by
    rw [List.eq_of_mem_replicate hc]
    decide
  have htail : (d ++ '.' :: rest).takeWhile isW = [] ∧
      (d ++ '.' :: rest).dropWhile isW = d ++ '.' :: rest := by
    cases d with
    | nil =>
      simp only [List.nil_append]
      exact ⟨List.takeWhile_cons_of_neg (by decide), List.dropWhile_cons_of_neg (by decide)⟩
    | cons c cs =>
      have hcw : ¬ (isW c = true) := by
        rw [not_isW_of_digit (hd c (List.mem_cons_self c cs))]
        simp
      simp only [List.cons_append]
      exact ⟨List.takeWhile_cons_of_neg hcw, List.dropWhile_cons_of_neg hcw⟩
  constructor
  · rw [List.takeWhile_append_of_pos hall, htail.1, List.append_nil]
  · rw [List.dropWhile_append_of_pos hall, htail.2]

/-- The host regex either matches — the list decomposes as one to three
`w`s, a digit run and a dot, and the substitution drops that prefix —
or no such decomposition exists and the list is unchanged. -/
theorem stripHostWWW_spec (l : List Char) :
    (∃ k d rest, 1 ≤ k ∧ k ≤ 3 ∧ (∀ c ∈ d, Char.isDigit c = true) ∧
        l = List.replicate k 'w' ++ (d ++ '.' :: rest) ∧ stripHostWWW l = rest) ∨
    ((¬ ∃ k d rest, 1 ≤ k ∧ k ≤ 3 ∧ (∀ c ∈ d, Char.isDigit c = true) ∧
        l = List.replicate k 'w' ++ (d ++ '.' :: rest)) ∧ stripHostWWW l = l) := by
  by_cases hrun : 1 ≤ (l.takeWhile isW).length ∧ (l.takeWhile isW).length ≤ 3
  · cases hdd : (l.dropWhile isW).dropWhile Char.isDigit with
    | nil =>
      refine Or.inr ⟨?_, ?_⟩
      · rintro ⟨k, d, rest, _, _, hd, hdecomp⟩
        rw [hdecomp, (decomp_w_parts hd).2, dropWhile_digits_of_append hd] at hdd
        cases hdd
      · unfold stripHostWWW
        rw [if_pos hrun]
        exact hostDotTail_orig l (fun r hr => by rw [hdd] at hr; cases hr)
    | cons c rest0 =>
      by_cases hc : c = '.'
      · subst hc
        obtain ⟨n, hn1, hn2⟩ : ∃ n, n = (l.takeWhile isW).length ∧
            l.takeWhile isW = List.replicate n 'w' :=
          ⟨_, rfl, takeWhile_isW_replicate l⟩
        refine Or.inl ⟨n, (l.dropWhile isW).takeWhile Char.isDigit, rest0,
          hn1 ▸ hrun.1, hn1 ▸ hrun.2,
          fun x hx => List.mem_takeWhile_imp hx, ?_, ?_⟩
        · calc l = l.takeWhile isW ++ l.dropWhile isW :=
                (List.takeWhile_append_dropWhile isW l).symm
            _ = l.takeWhile isW ++ ((l.dropWhile isW).takeWhile Char.isDigit ++
                  (l.dropWhile isW).dropWhile Char.isDigit) := by
                rw [List.takeWhile_append_dropWhile Char.isDigit (l.dropWhile isW)]
            _ = List.replicate n 'w' ++ ((l.dropWhile isW).takeWhile Char.isDigit ++
                  '.' :: rest0) := by rw [hdd, hn2]
        · unfold stripHostWWW
          rw [if_pos hrun]
          exact hostDotTail_drop l hdd
      · refine Or.inr ⟨?_, ?_⟩
        · rintro ⟨k, d, rest, _, _, hd, hdecomp⟩
          rw [hdecomp, (decomp_w_parts hd).2, dropWhile_digits_of_append hd] at hdd
          exact hc (List.head_eq_of_cons_eq hdd.symm)
        · unfold stripHostWWW
          rw [if_pos hrun]
          refine hostDotTail_orig l (fun r hr => ?_)
          rw [hdd] at hr
          exact hc (List.head_eq_of_cons_eq hr)
  · refine Or.inr ⟨?_, by unfold stripHostWWW; rw [if_neg hrun]⟩
    rintro ⟨k, d, rest, hk1, hk3, hd, hdecomp⟩
    apply hrun
    rw [hdecomp, (decomp_w_parts hd).1, List.length_replicate]
    exact ⟨hk1, hk3⟩

/-- A successful `pyUrlparseNetloc` determines `clean_host`. -/
theorem clean_host_ok {url host : String} (h : pyUrlparseNetloc url = .ok host) :
    clean_host url = .ok ⟨stripHostWWW host.data⟩ := by
  unfold clean_host
  rw [h]

/-! ### Characterization of the extension-stripping regex -/

/-- Reversing a list ending in a dot and a run of lowercase letters. -/
theorem rev_takeWhile_lower {pre suf : List Char}
    (hsuf : ∀ c ∈ suf, Char.isLower c = true) :
    (pre ++ '.' :: suf).reverse.takeWhile Char.isLower = suf.reverse ∧
    (pre ++ '.' :: suf).reverse.dropWhile Char.isLower = '.' :: pre.reverse := by
  rw [List.reverse_append, List.reverse_cons, List.append_assoc, List.singleton_append]
  have hall : ∀ c ∈ suf.reverse, Char.isLower c = true := fun c hc =>
    hsuf c (List.mem_reverse.mp hc)
  constructor
  · rw [List.takeWhile_append_of_pos hall, List.takeWhile_cons_of_neg (by decide),
        List.append_nil]
  · rw [List.dropWhile_append_of_pos hall, List.dropWhile_cons_of_neg (by decide)]

/-- The extension regex either matches — the list decomposes as a stem,
a dot and one to five lowercase letters reaching the end, and the
substitution keeps only the stem — or no such decomposition exists and
the list is unchanged. -/
theorem stripExtension_spec (l : List Char) :
    (∃ pre suf, 1 ≤ suf.length ∧ suf.length ≤ 5 ∧ (∀ c ∈ suf, Char.isLower c = true) ∧
        l = pre ++ '.' :: suf ∧ stripExtension l = pre) ∨
    ((¬ ∃ pre suf, 1 ≤ suf.length ∧ suf.length ≤ 5 ∧ (∀ c ∈ suf, Char.isLower c = true) ∧
        l = pre ++ '.' :: suf) ∧ stripExtension l = l) := by
  by_cases hrun : 1 ≤ (l.reverse.takeWhile Char.isLower).length ∧
      (l.reverse.takeWhile Char.isLower).length ≤ 5
  · cases hdd : l.reverse.dropWhile Char.isLower with
    | nil =>
      refine Or.inr ⟨?_, ?_⟩
      · rintro ⟨pre, suf, _, _, hlow, hdec⟩
        rw [hdec, (rev_takeWhile_lower hlow).2] at hdd
        cases hdd
      · unfold stripExtension
        rw [if_pos hrun, hdd]
    | cons c restRev =>
      by_cases hc : c = '.'
      · subst hc
        have hrev : l.reverse = l.reverse.takeWhile Char.isLower ++ '.' :: restRev := by
          conv_lhs => rw [← List.takeWhile_append_dropWhile Char.isLower l.reverse]
          rw [hdd]
        refine Or.inl ⟨restRev.reverse, (l.reverse.takeWhile Char.isLower).reverse,
          ?_, ?_, ?_, ?_, ?_⟩
        · rw [List.length_reverse]
          exact hrun.1
        · rw [List.length_reverse]
          exact hrun.2
        · exact fun x hx => List.mem_takeWhile_imp (List.mem_reverse.mp hx)
        · calc l = l.reverse.reverse := (List.reverse_reverse l).symm
            _ = (l.reverse.takeWhile Char.isLower ++ '.' :: restRev).reverse := by
                rw [← hrev]
            _ = ('.' :: restRev).reverse ++ (l.reverse.takeWhile Char.isLower).reverse := by
                rw [List.reverse_append]
            _ = restRev.reverse ++ '.' :: (l.reverse.takeWhile Char.isLower).reverse := by
                rw [List.reverse_cons, List.append_assoc, List.singleton_append]
        · unfold stripExtension
          rw [if_pos hrun, hdd]
          rfl
      · refine Or.inr ⟨?_, ?_⟩
        · rintro ⟨pre, suf, _, _, hlow, hdec⟩
          rw [hdec, (rev_takeWhile_lower hlow).2] at hdd
          exact hc (List.head_eq_of_cons_eq hdd).symm
        · unfold stripExtension
          rw [if_pos hrun, hdd]
          split
          · rename_i rest heq
            exact absurd (List.head_eq_of_cons_eq heq) hc
          · rfl
  · refine Or.inr ⟨?_, by unfold stripExtension; rw [if_neg hrun]⟩
    rintro ⟨pre, suf, h1, h5, hlow, hdec⟩
    apply hrun
    rw [hdec, (rev_takeWhile_lower hlow).1, List.length_reverse]
    exact ⟨h1, h5⟩

/-- A successful `pyUrlparsePath` determines `clean_url`. -/
theorem clean_url_ok {url p : String} (h : pyUrlparsePath url = .ok p) :
    clean_url url = .ok ⟨nonAlnumToSpace (stripExtension p.data)⟩ := by
  unfold clean_url
  rw [h]

/-! ### Totality lemmas -/

theorem toNat_ofNat_lt {n : Nat} (h : n < 55296) : (Char.ofNat n).toNat = n := by
  rw [Char.ofNat, dif_pos (Or.inl h)]
  rfl

theorem pyLowerChar_ascii {c : Char} (h : c.toNat < 128) : (pyLowerChar c).toNat < 128 := by
  unfold pyLowerChar
  split
  · rename_i hr
    rw [toNat_ofNat_lt (by omega)]
    omega
  · exact h

theorem spacePieces_nil : spacePieces [] = [[]] := rfl

theorem spacePieces_cons (c : Char) (t : List Char) :
    spacePieces (c :: t) =
      if isPySpace c then [] :: spacePieces t
      else
        match spacePieces t with
        | [] => [[c]]
        | g :: rest => (c :: g) :: rest := rfl

/-- Every character of a piece comes from the split list. -/
theorem spacePieces_chars : ∀ {l : List Char} {g : List Char},
    g ∈ spacePieces l → ∀ c ∈ g, c ∈ l := by
  intro l
  induction l with
  | nil =>
    intro g hg c hc
    rw [spacePieces_nil] at hg
    simp only [List.mem_singleton] at hg
    subst hg
    cases hc
  | cons c0 t ih =>
    intro g hg c hc
    rw [spacePieces_cons] at hg
    split at hg
    · rcases List.mem_cons.mp hg with rfl | hg2
      · cases hc
      · exact List.mem_cons_of_mem _ (ih hg2 c hc)
    · split at hg
      · simp only [List.mem_singleton] at hg
        subst hg
        simp only [List.mem_singleton] at hc
        subst hc
        exact List.mem_cons_self _ _
      · rename_i g0 rest heq
        rcases List.mem_cons.mp hg with rfl | hg2
        · rcases List.mem_cons.mp hc with rfl | hc2
          · exact List.mem_cons_self _ _
          · have hg0 : g0 ∈ spacePieces t := by
              rw [heq]
              exact List.mem_cons_self _ _
            exact List.mem_cons_of_mem _ (ih hg0 c hc2)
        · have hgm : g ∈ spacePieces t := by
            rw [heq]
            exact List.mem_cons_of_mem _ hg2
          exact List.mem_cons_of_mem _ (ih hgm c hc)

/-- Characters of split words come from the split string. -/
theorem pySplit_chars {s w : String} (hw : w ∈ pySplit s) : ∀ c ∈ w.data, c ∈ s.data := by
  intro c hc
  unfold pySplit at hw
  rcases List.mem_map.mp hw with ⟨g, hg, rfl⟩
  unfold wsSplit at hg
  exact spacePieces_chars (List.mem_filter.mp hg).1 c hc

/-- Mapping `pyUnicode` succeeds on ASCII words. -/
theorem mapE_pyUnicode_total : ∀ {l : List String},
    (∀ w ∈ l, ∀ c ∈ w.data, c.toNat < 128) → mapE pyUnicode l = .ok l
  | [], _ => rfl
  | w :: ws, h => by
    have hw : pyUnicode w = .ok w := by
      unfold pyUnicode
      rw [if_pos (List.all_eq_true.mpr (fun c hc => decide_eq_true (h w
        (List.mem_cons_self w ws) c hc)))]
    simp only [mapE, hw, mapE_pyUnicode_total
      (fun v hv c hc => h v (List.mem_cons_of_mem _ hv) c hc)]

/-- Totality of `tokenize`: it succeeds on every ASCII string. -/
theorem tokenize_total {text : String} (h : ∀ c ∈ text.data, c.toNat < 128) :
    ∃ s, tokenize text = .ok s := by
  have hascii : ∀ w ∈ (pySplit (pyLower (WORD_DELIMITER_sub text))).filter
      (fun w => w.length > FULL_TEXT_MIN_LENGTH), ∀ c ∈ w.data, c.toNat < 128 := by
    intro w hw c hc
    have hw2 := (List.mem_filter.mp hw).1
    have hc2 := pySplit_chars hw2 c hc
    have hd : (pyLower (WORD_DELIMITER_sub text)).data =
        (text.data.map (fun c => if isPyPunct c then ' ' else c)).map pyLowerChar := rfl
    rw [hd] at hc2
    rcases List.mem_map.mp hc2 with ⟨c1, hc1, rfl⟩
    rcases List.mem_map.mp hc1 with ⟨c0, hc0, rfl⟩
    apply pyLowerChar_ascii
    split
    · decide
    · exact h c0 hc0
  unfold tokenize
  rw [mapE_pyUnicode_total hascii]
  exact ⟨_, rfl⟩

theorem splitScheme_snd_sublist (l : List Char) : List.Sublist (splitScheme l).2 l := by
  unfold splitScheme
  repeat' split
  all_goals first
    | exact List.Sublist.refl l
    | exact List.drop_sublist _ _

theorem splitNetloc_fst_sublist (u : List Char) : List.Sublist (splitNetloc u).1 u := by
  unfold splitNetloc
  split
  · exact (List.takeWhile_sublist _).trans (List.drop_sublist _ _)
  · exact List.nil_sublist u

/-- Our `urlsplit` raises only for a URL whose characters include a square
bracket. -/
theorem pyUrlsplit_total {url : String} (h1 : '[' ∉ url.data) (h2 : ']' ∉ url.data) :
    pyUrlsplit url = .ok ((splitScheme url.data).1,
      ⟨(splitNetloc (splitScheme url.data).2).1⟩,
      ⟨stripQuery (stripFrag (splitNetloc (splitScheme url.data).2).2)⟩) := by
  have hsub : List.Sublist (splitNetloc (splitScheme url.data).2).1 url.data :=
    (splitNetloc_fst_sublist _).trans (splitScheme_snd_sublist _)
  unfold pyUrlsplit
  rw [if_neg]
  rintro (⟨hb, _⟩ | ⟨hb, _⟩)
  · exact h1 (hsub.subset hb)
  · exact h2 (hsub.subset hb)

/-- A successful `pyUrlsplit` determines `pyUrlparseNetloc`. -/
theorem pyUrlparseNetloc_eq {url : String} {s n p : String}
    (h : pyUrlsplit url = .ok (s, n, p)) : pyUrlparseNetloc url = .ok n := by
  unfold pyUrlparseNetloc
  rw [h]

/-- A successful `pyUrlsplit` determines `pyUrlparsePath`. -/
theorem pyUrlparsePath_eq {url : String} {s n p : String}
    (h : pyUrlsplit url = .ok (s, n, p)) :
    pyUrlparsePath url =
      if s ∈ uses_params ∧ ';' ∈ p.data then .ok ⟨splitparamsPath p.data⟩ else .ok p := by
  unfold pyUrlparsePath
  rw [h]

theorem pyUrlparseNetloc_total {url : String} (h1 : '[' ∉ url.data) (h2 : ']' ∉ url.data) :
    ∃ host, pyUrlparseNetloc url = .ok host :=
  ⟨_, pyUrlparseNetloc_eq (pyUrlsplit_total h1 h2)⟩

theorem pyUrlparsePath_total {url : String} (h1 : '[' ∉ url.data) (h2 : ']' ∉ url.data) :
    ∃ p, pyUrlparsePath url = .ok p := by
  rw [pyUrlparsePath_eq (pyUrlsplit_total h1 h2)]
  split
  · exact ⟨_, rfl⟩
  · exact ⟨_, rfl⟩

theorem clean_host_total {url : String} (h1 : '[' ∉ url.data) (h2 : ']' ∉ url.data) :
    ∃ host, clean_host url = .ok host := by
  obtain ⟨host, hh⟩ := pyUrlparseNetloc_total h1 h2
  exact ⟨_, clean_host_ok hh⟩

theorem clean_url_total {url : String} (h1 : '[' ∉ url.data) (h2 : ']' ∉ url.data) :
    ∃ p, clean_url url = .ok p := by
  obtain ⟨p, hp⟩ := pyUrlparsePath_total h1 h2
  exact ⟨_, clean_url_ok hp⟩

/-- The output of the URL cleaning replacement is all-ASCII: every kept
character is ASCII alphanumeric and every other character becomes a
space. -/
theorem nonAlnumToSpace_ascii {l : List Char} : ∀ c ∈ nonAlnumToSpace l, c.toNat < 128 := by
  intro c hc
  unfold nonAlnumToSpace at hc
  rcases List.mem_map.mp hc with ⟨c0, _, rfl⟩
  split
  · rename_i ha
    simp only [isAsciiAlnum, decide_eq_true_eq] at ha
    omega
  · decide

/-- A successful `clean_url` determines `tokenize_url` up to the inner
`tokenize` call. -/
theorem tokenize_url_eq {url cu : String} (h : clean_url url = .ok cu) :
    tokenize_url url =
      match tokenize cu with
      | .error e => .error e
      | .ok ut => .ok (ut \ URL_STOP_WORDS) := by
  unfold tokenize_url
  rw [h]

theorem tokenize_url_total {url : String} (h1 : '[' ∉ url.data) (h2 : ']' ∉ url.data) :
    ∃ s, tokenize_url url = .ok s := by
  obtain ⟨p, hp⟩ := pyUrlparsePath_total h1 h2
  have hcc : ∀ c ∈ (⟨nonAlnumToSpace (stripExtension p.data)⟩ : String).data,
      c.toNat < 128 := fun c hc => nonAlnumToSpace_ascii c hc
  obtain ⟨ts, hts⟩ := tokenize_total hcc
  rw [tokenize_url_eq (clean_url_ok hp), hts]
  exact ⟨_, rfl⟩

/-- Mapping `tokenize` succeeds on ASCII titles. -/
theorem mapE_tokenize_total : ∀ {l : List String},
    (∀ t ∈ l, ∀ c ∈ t.data, c.toNat < 128) → ∃ l2, mapE tokenize l = .ok l2
  | [], _ => ⟨[], rfl⟩
  | t :: ts, h => by
    obtain ⟨s, hs⟩ := tokenize_total (h t (List.mem_cons_self t ts))
    obtain ⟨l2, hl2⟩ := mapE_tokenize_total
      (fun v hv c hc => h v (List.mem_cons_of_mem _ hv) c hc)
    exact ⟨s :: l2, by simp only [mapE, hs, hl2]⟩

theorem tokenize_story_total {titles : List String} {tags : Finset String} {url : String}
    (ht : ∀ t ∈ titles, ∀ c ∈ t.data, c.toNat < 128)
    (h1 : '[' ∉ url.data) (h2 : ']' ∉ url.data) :
    ∃ s, tokenize_story titles tags url = .ok s := by
  obtain ⟨l2, hl2⟩ := mapE_tokenize_total ht
  obtain ⟨ut, hut⟩ := tokenize_url_total h1 h2
  unfold tokenize_story
  rw [hl2, hut]
  exact ⟨_, rfl⟩

/-! ### Splitting a space-joined word list -/

theorem map_id_chars : ∀ {l : List Char} {f : Char → Char},
    (∀ c ∈ l, f c = c) → l.map f = l
  | [], _, _ => rfl
  | c :: t, f, h => by
    rw [List.map_cons, h c (List.mem_cons_self c t),
        map_id_chars (fun d hd => h d (List.mem_cons_of_mem _ hd))]

theorem joinChars_mem : ∀ {L : List (List Char)} {c : Char},
    c ∈ joinChars L → c = ' ' ∨ ∃ w ∈ L, c ∈ w
  | [], c, h => absurd h (List.not_mem_nil c)
  | [w], c, h => Or.inr ⟨w, List.mem_cons_self w [], h⟩
  | w :: v :: ws, c, h => by
    rcases List.mem_append.mp h with hw | hrest
    · exact Or.inr ⟨w, List.mem_cons_self _ _, hw⟩
    · rcases List.mem_cons.mp hrest with rfl | hjoin
      · exact Or.inl rfl
      · rcases joinChars_mem hjoin with hsp | ⟨u, hu, hcu⟩
        · exact Or.inl hsp
        · exact Or.inr ⟨u, List.mem_cons_of_mem _ hu, hcu⟩

theorem spacePieces_ne_nil : ∀ (l : List Char), spacePieces l ≠ []
  | [] => by
    rw [spacePieces_nil]
    simp
  | c :: t => by
    rw [spacePieces_cons]
    split
    · simp
    · split
      · simp
      · simp

theorem spacePieces_append_nospace : ∀ {w l : List Char} {g : List Char} {gs},
    (∀ c ∈ w, isPySpace c = false) → spacePieces l = g :: gs →
    spacePieces (w ++ l) = (w ++ g) :: gs
  | [], l, g, gs, _, hl => by simpa using hl
  | c :: w2, l, g, gs, hw, hl => by
    rw [List.cons_append, spacePieces_cons,
        if_neg (by rw [hw c (List.mem_cons_self _ _)]; simp),
        spacePieces_append_nospace (fun d hd => hw d (List.mem_cons_of_mem _ hd)) hl]
    rfl

/-- Splitting a join of nonempty space-free words gives the words back. -/
theorem wsSplit_join : ∀ {L : List (List Char)},
    (∀ w ∈ L, w ≠ [] ∧ ∀ c ∈ w, isPySpace c = false) →
    wsSplit (joinChars L) = L
  | [], _ => rfl
  | [w], h => by
    obtain ⟨hne, hsp⟩ := h w (List.mem_cons_self w [])
    have hpieces : spacePieces w = [w] := by
      have := spacePieces_append_nospace hsp spacePieces_nil
      rwa [List.append_nil] at this
    have hwE : w.isEmpty = false := by
      cases w with
      | nil => exact absurd rfl hne
      | cons a t => rfl
    show (spacePieces w).filter (fun g => ¬ g.isEmpty) = [w]
    rw [hpieces, List.filter_cons_of_pos (by simp [hwE])]
    rfl
  | w :: v :: ws, h => by
    obtain ⟨hne, hsp⟩ := h w (List.mem_cons_self _ _)
    obtain ⟨g, gs, hgs⟩ : ∃ g gs, spacePieces (joinChars (v :: ws)) = g :: gs := by
      cases hspl : spacePieces (joinChars (v :: ws)) with
      | nil => exact absurd hspl (spacePieces_ne_nil _)
      | cons g gs => exact ⟨g, gs, rfl⟩
    have hsub : spacePieces (' ' :: joinChars (v :: ws)) = [] :: g :: gs := by
      rw [spacePieces_cons, if_pos (by decide), hgs]
    have hall : spacePieces (w ++ ' ' :: joinChars (v :: ws)) = (w ++ []) :: g :: gs :=
      spacePieces_append_nospace hsp hsub
    have hwE : w.isEmpty = false := by
      cases w with
      | nil => exact absurd rfl hne
      | cons a t => rfl
    have hih := wsSplit_join (fun u hu => h u (List.mem_cons_of_mem _ hu))
    show (spacePieces (w ++ ' ' :: joinChars (v :: ws))).filter (fun g => ¬ g.isEmpty) =
      w :: v :: ws
    rw [hall, List.append_nil, List.filter_cons_of_pos (by simp [hwE])]
    have : (g :: gs).filter (fun g => ¬ g.isEmpty) = v :: ws := by
      rw [← hgs]
      exact hih
    rw [this]

theorem map_mk_data : ∀ (ws : List String), (ws.map String.data).map String.mk = ws
  | [] => rfl
  | w :: ws => by
    rw [List.map_cons, List.map_cons, map_mk_data ws]

/-! ### The claims -/

/-- Claim C1: for every input on which `generate_search_field` returns a
`Results`, the token set contains the synthetic entry `"host:" ++ clean_host url`,
and the tag list is non-empty with the cleaned host as its first element. -/
theorem claim_C1 (stem : String → String) (extractTags : String → Finset String)
    (titles : List String) (existing_tags : Finset String) (url : String) (r : Results)
    (h : generate_search_field stem extractTags titles existing_tags url = .ok r) :
    ∃ host, clean_host url = .ok host ∧ ("host:" ++ host) ∈ r.search_tokens ∧
      r.tags ≠ [] ∧ r.tags.head? = some host := by
  obtain ⟨raw, host, _hts, hch, hr⟩ := generate_search_field_ok h
  subst hr
  exact ⟨host, hch, Finset.mem_insert_self _ _, by simp, rfl⟩

/-- Witness for C1 at a concrete input. -/
theorem claim_C1_witness :
    ∃ host, clean_host "http://www.google.com/foo" = .ok host ∧
      ("host:" ++ host) ∈ (Results.mk {"host:google.com", "foo"} ["google.com"]).search_tokens ∧
      (Results.mk {"host:google.com", "foo"} ["google.com"]).tags ≠ [] ∧
      (Results.mk {"host:google.com", "foo"} ["google.com"]).tags.head? = some host :=
  claim_C1 id (fun _ => ∅) [] ∅ "http://www.google.com/foo"
    ⟨{"host:google.com", "foo"}, ["google.com"]⟩ (by decide)

/-- Claim C2: every token produced by `tokenize` has length at least 3
and is not a general stop word. -/
theorem claim_C2 (text : String) (s : Finset String) (h : tokenize text = .ok s) :
    ∀ w ∈ s, 3 ≤ w.length ∧ w ∉ FULL_TEXT_STOP_WORDS := by
  intro w hw
  rw [tokenize_ok h, Finset.mem_sdiff, List.mem_toFinset, List.mem_filter] at hw
  obtain ⟨⟨_, hlen⟩, hstop⟩ := hw
  refine ⟨?_, hstop⟩
  simp only [FULL_TEXT_MIN_LENGTH, gt_iff_lt, decide_eq_true_eq] at hlen
  omega

/-- Witness for C2 at a concrete input and token. -/
theorem claim_C2_witness :
    3 ≤ ("greatest" : String).length ∧ "greatest" ∉ FULL_TEXT_STOP_WORDS :=
  claim_C2 "This is the greatest title ever" {"greatest", "title"} (by decide)
    "greatest" (by decide)

/-- Claim C3: no token produced by `tokenize_url` is a URL stop word. -/
theorem claim_C3 (url : String) (s : Finset String) (h : tokenize_url url = .ok s) :
    ∀ w ∈ s, w ∉ URL_STOP_WORDS := by
  obtain ⟨cu, ut, _hcu, _ht, hs⟩ := tokenize_url_ok h
  subst hs
  intro w hw
  exact (Finset.mem_sdiff.mp hw).2

/-- Witness for C3 at a concrete input and token. -/
theorem claim_C3_witness : "foo" ∉ URL_STOP_WORDS :=
  claim_C3 "http://google.com/foo" {"foo"} (by decide) "foo" (by decide)

/-- Claim C8: in the returned tag list, the part after the host entry
has no duplicates and is sorted in lexicographically non-decreasing
(byte) order. -/
theorem claim_C8 (stem : String → String) (extractTags : String → Finset String)
    (titles : List String) (existing_tags : Finset String) (url : String) (r : Results)
    (h : generate_search_field stem extractTags titles existing_tags url = .ok r) :
    (r.tags.drop 1).Nodup ∧ List.Sorted pyStrLe (r.tags.drop 1) := by
  obtain ⟨raw, host, _hts, _hch, hr⟩ := generate_search_field_ok h
  subst hr
  exact ⟨pySortSet_nodup _, pySortSet_sorted _⟩

/-- Witness for C8 at a concrete input. -/
theorem claim_C8_witness :
    ((Results.mk {"host:", "a", "b"} ["", "a", "b"]).tags.drop 1).Nodup ∧
      List.Sorted pyStrLe ((Results.mk {"host:", "a", "b"} ["", "a", "b"]).tags.drop 1) :=
  claim_C8 id (fun _ => ∅) [] {"b", "a"} "" ⟨{"host:", "a", "b"}, ["", "a", "b"]⟩ (by decide)

/-- Counterexample to C4 as stated: for the title `"www www"` with no
tags and an empty URL, the returned token set contains the URL stop
word `"www"` although the tag set is empty — URL stop words are only
filtered out of URL-derived tokens, not out of title-derived ones. -/
theorem claim_C4_counterexample :
    generate_search_field id (fun _ => ∅) ["www www"] ∅ "" =
        .ok ⟨{"host:", "www"}, [""]⟩ ∧
      "www" ∈ ({"host:", "www"} : Finset String) ∧
      "www" ∈ URL_STOP_WORDS ∧
      allTags (fun _ => ∅) ["www www"] ∅ = ∅ := by decide

/-- Claim C4, amended: every returned search token is the host
pseudo-token or the stem of a raw story token; a raw story token that
is a general stop word can only have entered via the tag set, while a
raw story token that is a URL-specific stop word can have entered via
the tag set or via the tokens of one of the titles. -/
theorem claim_C4_amended (stem : String → String) (extractTags : String → Finset String)
    (titles : List String) (existing_tags : Finset String) (url : String) (r : Results)
    (h : generate_search_field stem extractTags titles existing_tags url = .ok r) :
    ∀ w ∈ r.search_tokens,
      (∃ host, clean_host url = .ok host ∧ w = "host:" ++ host) ∨
      ∃ t s, tokenize_story titles (allTags extractTags titles existing_tags) url = .ok s ∧
        t ∈ s ∧ w = stem t ∧
        (t ∈ FULL_TEXT_STOP_WORDS → t ∈ allTags extractTags titles existing_tags) ∧
        (t ∈ URL_STOP_WORDS → t ∈ allTags extractTags titles existing_tags ∨
          ∃ ti ∈ titles, ∃ ts, tokenize ti = .ok ts ∧ t ∈ ts) := by
  obtain ⟨raw, host, hts, hch, hr⟩ := generate_search_field_ok h
  subst hr
  intro w hw
  rcases Finset.mem_insert.mp hw with hw | hw
  · exact Or.inl ⟨host, hch, hw⟩
  · obtain ⟨t, ht, hwt⟩ := Finset.mem_image.mp hw
    refine Or.inr ⟨t, raw, hts, ht, hwt.symm, ?_⟩
    obtain ⟨titleTokens, urlTokens, htt, hut, hs⟩ := tokenize_story_ok hts
    subst hs
    rcases Finset.mem_union.mp ht with ht1 | hurl
    · rcases Finset.mem_union.mp ht1 with htit | htag
      · rw [mem_foldl_union] at htit
        rcases htit with habs | ⟨ts0, hts0, htts0⟩
        · exact absurd habs (Finset.not_mem_empty t)
        · obtain ⟨ti, hti, htok⟩ := forall₂_mem_right (mapE_ok htt) hts0
          exact ⟨fun hstop => absurd hstop (tokenize_mem_not_stop htok htts0),
                 fun _ => Or.inr ⟨ti, hti, ts0, htok, htts0⟩⟩
      · exact ⟨fun _ => htag, fun _ => Or.inl htag⟩
    · obtain ⟨cu, ut, _hcu, hcut, hs2⟩ := tokenize_url_ok hut
      subst hs2
      rw [Finset.mem_sdiff] at hurl
      exact ⟨fun hstop => absurd hstop (tokenize_mem_not_stop hcut hurl.1),
             fun hstop => absurd hstop hurl.2⟩

/-- Witness for the amended C4 at a concrete input and token. -/
theorem claim_C4_amended_witness :
    (∃ host, clean_host "" = .ok host ∧ "www" = "host:" ++ host) ∨
    ∃ t s, tokenize_story ["www www"] (allTags (fun _ => ∅) ["www www"] ∅) "" = .ok s ∧
      t ∈ s ∧ "www" = id t ∧
      (t ∈ FULL_TEXT_STOP_WORDS → t ∈ allTags (fun _ => ∅) ["www www"] ∅) ∧
      (t ∈ URL_STOP_WORDS → t ∈ allTags (fun _ => ∅) ["www www"] ∅ ∨
        ∃ ti ∈ ["www www"], ∃ ts, tokenize ti = .ok ts ∧ t ∈ ts) :=
  claim_C4_amended id (fun _ => ∅) ["www www"] ∅ "" ⟨{"host:", "www"}, [""]⟩ (by decide)
    "www" (by decide)

/-- Counterexample to C7 as stated: the functions are not total on all
byte strings.  `unicode(w)` raises `UnicodeDecodeError` on a non-ASCII
word that passes the length filter (here three bytes `0xE9`), and
Python 2.7's `urlparse` raises `ValueError` on a network location with
an unmatched square bracket; both escape through every caller. -/
theorem claim_C7_counterexample :
    tokenize ⟨[Char.ofNat 233, Char.ofNat 233, Char.ofNat 233]⟩ =
        .error .unicodeDecodeError ∧
    clean_host "http://[x/y" = .error .invalidIPv6URL ∧
    clean_url "http://[x/y" = .error .invalidIPv6URL ∧
    tokenize_url "http://[x/y" = .error .invalidIPv6URL ∧
    generate_search_field id (fun _ => ∅)
        [⟨[Char.ofNat 233, Char.ofNat 233, Char.ofNat 233]⟩] ∅ "http://a.com/b" =
      .error .unicodeDecodeError := by decide

/-- Claim C7, amended: the functions are total on ASCII input —
`tokenize` never raises on an ASCII string, and the URL functions never
raise on a URL without square brackets (for `generate_search_field` the
titles must be ASCII as well).  Non-ASCII bytes in a kept word raise
`UnicodeDecodeError`; an unmatched bracket in the network location
raises `ValueError`. -/
theorem claim_C7_amended :
    (∀ text : String, (∀ c ∈ text.data, c.toNat < 128) → ∃ s, tokenize text = .ok s) ∧
    (∀ url : String, '[' ∉ url.data → ']' ∉ url.data →
      (∃ host, clean_host url = .ok host) ∧ (∃ p, clean_url url = .ok p) ∧
      (∃ s, tokenize_url url = .ok s)) ∧
    (∀ (stem : String → String) (extractTags : String → Finset String)
        (titles : List String) (existing_tags : Finset String) (url : String),
      (∀ t ∈ titles, ∀ c ∈ t.data, c.toNat < 128) → '[' ∉ url.data → ']' ∉ url.data →
      ∃ r, generate_search_field stem extractTags titles existing_tags url = .ok r) := by
  refine ⟨fun text h => tokenize_total h,
    fun url h1 h2 => ⟨clean_host_total h1 h2, clean_url_total h1 h2,
      tokenize_url_total h1 h2⟩,
    fun stem extractTags titles existing_tags url ht h1 h2 => ?_⟩
  obtain ⟨raw, hraw⟩ := tokenize_story_total ht h1 h2
  obtain ⟨host, hhost⟩ := clean_host_total h1 h2
  unfold generate_search_field
  rw [hraw, hhost]
  exact ⟨_, rfl⟩

/-- Witness for the amended C7 at concrete inputs. -/
theorem claim_C7_amended_witness :
    (∃ s, tokenize "abc" = .ok s) ∧
    (∃ host, clean_host "http://a.com/b" = .ok host) ∧
    (∃ r, generate_search_field id (fun _ => ∅) ["abc"] ∅ "http://a.com/b" = .ok r) :=
  ⟨claim_C7_amended.1 "abc" (by decide),
   (claim_C7_amended.2.1 "http://a.com/b" (by decide) (by decide)).1,
   claim_C7_amended.2.2 id (fun _ => ∅) ["abc"] ∅ "http://a.com/b"
     (by decide) (by decide) (by decide)⟩

/-- Counterexample to C5 as stated: on the path `/a--b` the code
replaces each of the two hyphens by its own space, while the claim's
run-collapsing description yields a single space for the run. -/
theorem claim_C5_counterexample :
    clean_url "http://x/a--b" = .ok " a  b" ∧
    clean_url_claimC5 "http://x/a--b" = .ok " a b" ∧
    (" a  b" : String) ≠ " a b" := by decide

/-- Claim C5, amended: `clean_url` takes the URL's path component,
strips a trailing suffix consisting of a dot followed by 1 to 5
lowercase letters at the end of the string when one exists, and then
replaces every non-alphanumeric-ASCII character with one space
character (so a run of `k` such characters becomes `k` spaces). -/
theorem claim_C5_amended (url p : String) (h : pyUrlparsePath url = .ok p) :
    ∃ q, clean_url url = .ok ⟨nonAlnumToSpace q⟩ ∧
      ((∃ suf, 1 ≤ suf.length ∧ suf.length ≤ 5 ∧ (∀ c ∈ suf, Char.isLower c = true) ∧
          p.data = q ++ '.' :: suf) ∨
       ((¬ ∃ pre suf, 1 ≤ suf.length ∧ suf.length ≤ 5 ∧
           (∀ c ∈ suf, Char.isLower c = true) ∧ p.data = pre ++ '.' :: suf) ∧
         q = p.data)) := by
  refine ⟨stripExtension p.data, clean_url_ok h, ?_⟩
  rcases stripExtension_spec p.data with ⟨pre, suf, h1, h5, hlow, hdec, hstrip⟩ |
    ⟨hno, hstrip⟩
  · rw [hstrip]
    exact Or.inl ⟨suf, h1, h5, hlow, hdec⟩
  · rw [hstrip]
    exact Or.inr ⟨hno, rfl⟩

/-- Witness for the amended C5 at a concrete input (`.html` stripped,
slashes become spaces). -/
theorem claim_C5_amended_witness :
    ∃ q, clean_url "http://google.com/foo/bar.html" = .ok ⟨nonAlnumToSpace q⟩ ∧
      ((∃ suf, 1 ≤ suf.length ∧ suf.length ≤ 5 ∧ (∀ c ∈ suf, Char.isLower c = true) ∧
          ("/foo/bar.html" : String).data = q ++ '.' :: suf) ∨
       ((¬ ∃ pre suf, 1 ≤ suf.length ∧ suf.length ≤ 5 ∧
           (∀ c ∈ suf, Char.isLower c = true) ∧
           ("/foo/bar.html" : String).data = pre ++ '.' :: suf) ∧
         q = ("/foo/bar.html" : String).data)) :=
  claim_C5_amended "http://google.com/foo/bar.html" "/foo/bar.html" (by decide)

/-- Claim C6: `clean_host` returns the URL's network-location component
with a leading prefix — one to three `w`s, optionally followed by
digits, followed by a dot — removed when it occurs at the very start of
the host, and returns the host otherwise unchanged (no case
normalization, no stripping anywhere but the start). -/
theorem claim_C6 (url host : String) (h : pyUrlparseNetloc url = .ok host) :
    ∃ res, clean_host url = .ok res ∧
      ((∃ k d rest, 1 ≤ k ∧ k ≤ 3 ∧ (∀ c ∈ d, Char.isDigit c = true) ∧
          host.data = List.replicate k 'w' ++ (d ++ '.' :: rest) ∧ res.data = rest) ∨
       ((¬ ∃ k d rest, 1 ≤ k ∧ k ≤ 3 ∧ (∀ c ∈ d, Char.isDigit c = true) ∧
           host.data = List.replicate k 'w' ++ (d ++ '.' :: rest)) ∧ res = host)) := by
  refine ⟨⟨stripHostWWW host.data⟩, clean_host_ok h, ?_⟩
  rcases stripHostWWW_spec host.data with ⟨k, d, rest, hk1, hk3, hd, hdec, hstrip⟩ |
    ⟨hno, hstrip⟩
  · exact Or.inl ⟨k, d, rest, hk1, hk3, hd, hdec, hstrip⟩
  · refine Or.inr ⟨hno, ?_⟩
    rw [hstrip]

/-- Witness for C6 at a concrete input: `www2.` is stripped, the rest of
the host (uppercase included) is untouched. -/
theorem claim_C6_witness :
    ∃ res, clean_host "http://www2.Example.com/x" = .ok res ∧
      ((∃ k d rest, 1 ≤ k ∧ k ≤ 3 ∧ (∀ c ∈ d, Char.isDigit c = true) ∧
          ("www2.Example.com" : String).data = List.replicate k 'w' ++ (d ++ '.' :: rest) ∧
          res.data = rest) ∨
       ((¬ ∃ k d rest, 1 ≤ k ∧ k ≤ 3 ∧ (∀ c ∈ d, Char.isDigit c = true) ∧
           ("www2.Example.com" : String).data = List.replicate k 'w' ++ (d ++ '.' :: rest)) ∧
         res = "www2.Example.com")) :=
  claim_C6 "http://www2.Example.com/x" "www2.Example.com" (by decide)

/-- Counterexample to C9 as stated: the claim's notion of "already
tokenized" (lowercase, no punctuation, length at least 3, not a stop
word) admits the single word `"abc def"` — a space is not punctuation —
yet tokenizing the joined set splits it, so the set is not returned
unchanged; it also admits a non-ASCII word on which `tokenize` raises
instead of returning anything. -/
theorem claim_C9_counterexample :
    (3 ≤ ("abc def" : String).length ∧ "abc def" ∉ FULL_TEXT_STOP_WORDS ∧
      ∀ c ∈ ("abc def" : String).data,
        isPyPunct c = false ∧ ¬ (65 ≤ c.toNat ∧ c.toNat ≤ 90)) ∧
    joinWords ["abc def"] = "abc def" ∧
    tokenize "abc def" = .ok {"abc", "def"} ∧
    ({"abc", "def"} : Finset String) ≠ (["abc def"] : List String).toFinset ∧
    (3 ≤ (⟨[Char.ofNat 233, Char.ofNat 233, Char.ofNat 233]⟩ : String).length ∧
      (⟨[Char.ofNat 233, Char.ofNat 233, Char.ofNat 233]⟩ : String) ∉ FULL_TEXT_STOP_WORDS ∧
      ∀ c ∈ (⟨[Char.ofNat 233, Char.ofNat 233, Char.ofNat 233]⟩ : String).data,
        isPyPunct c = false ∧ ¬ (65 ≤ c.toNat ∧ c.toNat ≤ 90)) ∧
    tokenize ⟨[Char.ofNat 233, Char.ofNat 233, Char.ofNat 233]⟩ =
      .error .unicodeDecodeError := by decide

/-- Claim C9, amended: tokenizing the space-joined text of any list of
words that are in tokenized form — lowercase, free of punctuation AND
of whitespace, ASCII, of length at least 3, and not stop words —
returns exactly that set of words. -/
theorem claim_C9_amended (ws : List String) (h : ∀ w ∈ ws, tokenizedWord w) :
    tokenize (joinWords ws) = .ok ws.toFinset := by
  have hchars : ∀ c ∈ (joinWords ws).data, c.toNat < 128 ∧ isPyPunct c = false ∧
      ¬ (65 ≤ c.toNat ∧ c.toNat ≤ 90) := by
    intro c hc
    rcases joinChars_mem hc with rfl | ⟨wd, hwd, hcw⟩
    · exact ⟨by decide, by decide, by decide⟩
    · rcases List.mem_map.mp hwd with ⟨w, hw, rfl⟩
      obtain ⟨ha, hp, _, hu⟩ := (h w hw).2.2 c hcw
      exact ⟨ha, hp, hu⟩
  have e1 : (joinWords ws).data.map (fun c => if isPyPunct c then ' ' else c) =
      (joinWords ws).data :=
    map_id_chars (fun c hc => if_neg (by simp [(hchars c hc).2.1]))
  have e2 : (joinWords ws).data.map pyLowerChar = (joinWords ws).data :=
    map_id_chars (fun c hc => by unfold pyLowerChar; exact if_neg (hchars c hc).2.2)
  have hA : pyLower (WORD_DELIMITER_sub (joinWords ws)) = joinWords ws := by
    show (⟨((joinWords ws).data.map (fun c => if isPyPunct c then ' ' else c)).map
      pyLowerChar⟩ : String) = joinWords ws
    rw [e1, e2]
  have hB : pySplit (joinWords ws) = ws := by
    unfold pySplit
    have hsplit : wsSplit (joinWords ws).data = ws.map String.data := by
      show wsSplit (joinChars (ws.map String.data)) = ws.map String.data
      apply wsSplit_join
      intro wd hwd
      rcases List.mem_map.mp hwd with ⟨w, hw, rfl⟩
      obtain ⟨hlen, _, hcond⟩ := h w hw
      refine ⟨?_, fun c hc => (hcond c hc).2.2.1⟩
      intro hnil
      have hz : w.length = 0 := by
        show w.data.length = 0
        rw [hnil]
        rfl
      omega
    rw [hsplit, map_mk_data]
  have hC : ws.filter (fun w => w.length > FULL_TEXT_MIN_LENGTH) = ws := by
    apply List.filter_eq_self.mpr
    intro w hw
    exact decide_eq_true (show w.length > FULL_TEXT_MIN_LENGTH from by
      have := (h w hw).1
      unfold FULL_TEXT_MIN_LENGTH
      omega)
  have hE : ws.toFinset \ FULL_TEXT_STOP_WORDS = ws.toFinset := by
    apply Finset.sdiff_eq_self_iff_disjoint.mpr
    rw [Finset.disjoint_left]
    intro a ha hstop
    exact absurd hstop (h a (List.mem_toFinset.mp ha)).2.1
  unfold tokenize
  rw [hA, hB, hC, mapE_pyUnicode_total (fun w hw c hc => ((h w hw).2.2 c hc).1)]
  show Except.ok (ws.toFinset \ FULL_TEXT_STOP_WORDS) = Except.ok ws.toFinset
  rw [hE]

/-- Witness for the amended C9 at a concrete input. -/
theorem claim_C9_amended_witness :
    tokenize (joinWords ["foo", "quux"]) = .ok (["foo", "quux"] : List String).toFinset :=
  claim_C9_amended ["foo", "quux"] (by decide)

/-- Claim C10: tags are unioned into the token set verbatim, bypassing
tokenization and all filters, and only the stemmer is applied to them:
a two-character tag with punctuation, a stop-word tag and a tag with an
uppercase letter all appear (stemmed) in `search_tokens`. -/
theorem claim_C10 :
    (generate_search_field id (fun _ => ∅) [] {"a!", "the", "Big"} "" =
       .ok ⟨{"host:", "a!", "the", "Big"}, ["", "Big", "a!", "the"]⟩) ∧
    "a!" ∈ ({"host:", "a!", "the", "Big"} : Finset String) ∧ "a!".length < 3 ∧
    "the" ∈ ({"host:", "a!", "the", "Big"} : Finset String) ∧
    "the" ∈ FULL_TEXT_STOP_WORDS ∧
    "Big" ∈ ({"host:", "a!", "the", "Big"} : Finset String) ∧
    (generate_search_field (fun s => "st:" ++ s) (fun _ => ∅) [] {"a!"} "" =
       .ok ⟨{"host:", "st:a!"}, ["", "a!"]⟩) := by decide

end Progscrape
